import Mathlib

/-!
Verification of the `cfavml` f64 AVX2 sum-kernel family
(`src/cfavml/src/danger/f64_avx2_sum.rs`).

The kernels are embedded shallowly:
* SIMD registers (`__m256d`) become `Vec4 α`; the 8 accumulator registers
  become `Acc8 α`.
* Raw memory becomes a `List α` indexed from the base pointer; unchecked
  loads become `List.getD` with default `F.zero` (all claims keep the
  indices in bounds), unchecked stores become `List.set`.
* Floating-point numbers are abstracted to a carrier with a zero and an
  addition (`FPOps`), with no algebraic laws: IEEE addition is neither
  associative nor has other ring laws, and the structural claims hold for
  an arbitrary such operation.  Claims that genuinely depend on the
  behavior of IEEE addition at zero are settled over the `SZ` model
  (exact rational magnitudes plus the round-to-nearest signed-zero rule),
  and claims about exact arithmetic are settled over `ℚ`.
* `while` loops become structural recursions on an explicit depth bound;
  each call site passes a bound that is at least the number of iterations
  of the source loop, so the loop guard alone decides the exit exactly as
  in the source.
* The helpers `offsets_avx2_pd`, `rollup_x8_pd` and `sum_avx2_pd` are
  repository code that is not part of the given source tree; they are
  modelled from the specification (sections 4.1 and 4.3) and marked as
  such.
-/

namespace Cfavml

/-- Abstract floating-point structure: a carrier with a zero and an
addition.  No laws are assumed (IEEE addition is not associative); the
structural theorems below hold for every such structure. -/
structure FPOps (α : Type) where
  zero : α
  add : α → α → α

variable {α : Type}

/-- Model of a 256-bit register holding 4 double lanes (`__m256d`). -/
structure Vec4 (α : Type) where
  e0 : α
  e1 : α
  e2 : α
  e3 : α
deriving DecidableEq

/-- Model of `_mm256_setzero_pd`. -/
def mm256SetzeroPd (F : FPOps α) : Vec4 α :=
  ⟨F.zero, F.zero, F.zero, F.zero⟩

/-- Model of `_mm256_add_pd`: lane-wise addition. -/
def mm256AddPd (F : FPOps α) (a b : Vec4 α) : Vec4 α :=
  ⟨F.add a.e0 b.e0, F.add a.e1 b.e1, F.add a.e2 b.e2, F.add a.e3 b.e3⟩

/-- Model of `_mm256_loadu_pd`: load the 4 consecutive elements at
indices `p .. p+3`. -/
def mm256LoaduPd (F : FPOps α) (xs : List α) (p : ℕ) : Vec4 α :=
  ⟨xs.getD p F.zero, xs.getD (p+1) F.zero, xs.getD (p+2) F.zero, xs.getD (p+3) F.zero⟩

/-- Model of `_mm256_storeu_pd`: store the 4 lanes at indices `p .. p+3`. -/
def mm256StoreuPd (out : List α) (p : ℕ) (v : Vec4 α) : List α :=
  (((out.set p v.e0).set (p+1) v.e1).set (p+2) v.e2).set (p+3) v.e3

def CHUNK_0 : ℕ := 0

def CHUNK_1 : ℕ := 1

/-- Modelled from the spec: `offsets_avx2_pd` (section 4.1, the
lane-offset helper, not part of the given source tree) returns the four
addresses needed to load 16 contiguous elements as four lane-groups of 4,
for the chunk selected by the compile-time constant. -/
def offsetsAvx2Pd (chunk : ℕ) (p : ℕ) : ℕ × ℕ × ℕ × ℕ :=
  (p + chunk * 16, p + chunk * 16 + 4, p + chunk * 16 + 8, p + chunk * 16 + 12)

/-- The 8 accumulator registers used by all kernels. -/
structure Acc8 (α : Type) where
  a1 : Vec4 α
  a2 : Vec4 α
  a3 : Vec4 α
  a4 : Vec4 α
  a5 : Vec4 α
  a6 : Vec4 α
  a7 : Vec4 α
  a8 : Vec4 α
deriving DecidableEq

/-- The 8 zero-initialized accumulators. -/
def zeroAcc8 (F : FPOps α) : Acc8 α :=
  ⟨mm256SetzeroPd F, mm256SetzeroPd F, mm256SetzeroPd F, mm256SetzeroPd F,
   mm256SetzeroPd F, mm256SetzeroPd F, mm256SetzeroPd F, mm256SetzeroPd F⟩

/-- Embedding of `sum_x64_block`: load the 32 elements at `x .. x+31` as
8 lane groups of 4 and add each group into its accumulator. -/
def sumX64Block (F : FPOps α) (xs : List α) (x : ℕ) (acc : Acc8 α) : Acc8 α :=
  ⟨mm256AddPd F acc.a1 (mm256LoaduPd F xs (offsetsAvx2Pd CHUNK_0 x).1),
   mm256AddPd F acc.a2 (mm256LoaduPd F xs (offsetsAvx2Pd CHUNK_0 x).2.1),
   mm256AddPd F acc.a3 (mm256LoaduPd F xs (offsetsAvx2Pd CHUNK_0 x).2.2.1),
   mm256AddPd F acc.a4 (mm256LoaduPd F xs (offsetsAvx2Pd CHUNK_0 x).2.2.2),
   mm256AddPd F acc.a5 (mm256LoaduPd F xs (offsetsAvx2Pd CHUNK_1 x).1),
   mm256AddPd F acc.a6 (mm256LoaduPd F xs (offsetsAvx2Pd CHUNK_1 x).2.1),
   mm256AddPd F acc.a7 (mm256LoaduPd F xs (offsetsAvx2Pd CHUNK_1 x).2.2.1),
   mm256AddPd F acc.a8 (mm256LoaduPd F xs (offsetsAvx2Pd CHUNK_1 x).2.2.2)⟩

/-- Modelled from the spec: `rollup_x8_pd` (section 4.3, not part of the
given source tree) pairwise-sums the 8 accumulators down to one register
by the tree reduction 8 → 4 → 2 → 1. -/
def rollupX8Pd (F : FPOps α) (a : Acc8 α) : Vec4 α :=
  mm256AddPd F
    (mm256AddPd F (mm256AddPd F a.a1 a.a2) (mm256AddPd F a.a3 a.a4))
    (mm256AddPd F (mm256AddPd F a.a5 a.a6) (mm256AddPd F a.a7 a.a8))

/-- Modelled from the spec: `sum_avx2_pd` (section 4.3, not part of the
given source tree) horizontally adds the 4 lanes of one register into a
single scalar; the pairwise grouping mirrors the tree-reduction scheme. -/
def sumAvx2Pd (F : FPOps α) (v : Vec4 α) : α :=
  F.add (F.add v.e0 v.e1) (F.add v.e2 v.e3)

/-- The `while i < bound { sum_x64_block(x.add(i), ...); i += 32 }` loop
shared by the horizontal kernels.  The first `ℕ` argument bounds the
recursion depth; every call site passes `bound - i`, which is at least
the number of iterations of the source loop, so the guard `i < bound`
alone decides the exit exactly as in the source.  Returns the final loop
index together with the accumulators. -/
def sumBlockLoop (F : FPOps α) (xs : List α) (bound : ℕ) :
    ℕ → ℕ → Acc8 α → ℕ × Acc8 α
  | 0, i, acc => (i, acc)
  | fuel+1, i, acc =>
      if i < bound then
        sumBlockLoop F xs bound fuel (i + 32) (sumX64Block F xs i acc)
      else (i, acc)

/-- Embedding of `f64_xconst_avx2_nofma_sum_horizontal::<DIMS>` (release
semantics; its debug assertions are modelled separately by
`f64XconstSumHorizontalAsserts`). -/
def f64XconstSumHorizontal (F : FPOps α) (DIMS : ℕ) (x : List α) : α :=
  sumAvx2Pd F (rollupX8Pd F (sumBlockLoop F x DIMS DIMS 0 (zeroAcc8 F)).2)

/-- The `while i < bound { acc1 += load(x+i); i += 4 }` remainder loop of
the arbitrary-length horizontal kernel (bound is `len - tail` in the
source).  Depth bound as in `sumBlockLoop`. -/
def sumQuadLoop (F : FPOps α) (xs : List α) (bound : ℕ) :
    ℕ → ℕ → Vec4 α → ℕ × Vec4 α
  | 0, i, acc => (i, acc)
  | fuel+1, i, acc =>
      if i < bound then
        sumQuadLoop F xs bound fuel (i + 4) (mm256AddPd F acc (mm256LoaduPd F xs i))
      else (i, acc)

/-- The `while i < len { extra += x[i]; i += 1 }` scalar remainder loop
of the arbitrary-length horizontal kernel.  Depth bound as in
`sumBlockLoop`. -/
def sumScalarLoop (F : FPOps α) (xs : List α) (len : ℕ) :
    ℕ → ℕ → α → α
  | 0, _, extra => extra
  | fuel+1, i, extra =>
      if i < len then
        sumScalarLoop F xs len fuel (i + 1) (F.add extra (xs.getD i F.zero))
      else extra

/-- Embedding of `f64_xany_avx2_nofma_sum_horizontal`.  The source guards
both remainder loops by a single `if offset_from != 0`; here each of the
two loop results is guarded by that same condition, which is the same
control flow. -/
def f64XanySumHorizontal (F : FPOps α) (x : List α) : α :=
  let len := x.length
  let offsetFrom := len % 32
  let s1 := sumBlockLoop F x (len - offsetFrom) (len - offsetFrom) 0 (zeroAcc8 F)
  let tail := offsetFrom % 4
  let q := if offsetFrom ≠ 0 then
      sumQuadLoop F x (len - tail) (len - s1.1) s1.1 s1.2.a1
    else (s1.1, s1.2.a1)
  let extra := if offsetFrom ≠ 0 then
      sumScalarLoop F x len (len - q.1) q.1 F.zero
    else F.zero
  F.add extra (sumAvx2Pd F (rollupX8Pd F
    ⟨q.2, s1.2.a2, s1.2.a3, s1.2.a4, s1.2.a5, s1.2.a6, s1.2.a7, s1.2.a8⟩))

/-- The row loop of `min_vertical_component`:
`while j < matrix_len { sum_x64_block(matrix_ptr.add(j + i), ...); j += dims }`.
Depth bound as in `sumBlockLoop`; call sites pass `matrix_len`, which is
at least the number of iterations whenever `dims > 0` (for `dims = 0` and
a nonempty matrix the source loop never terminates, so no claim below
concerns that case). -/
def minVerticalRowLoop (F : FPOps α) (xs : List α) (i dims mlen : ℕ) :
    ℕ → ℕ → Acc8 α → Acc8 α
  | 0, _, acc => acc
  | fuel+1, j, acc =>
      if j < mlen then
        minVerticalRowLoop F xs i dims mlen fuel (j + dims) (sumX64Block F xs (j + i) acc)
      else acc

/-- Embedding of `min_vertical_component`: accumulate the 32 columns at
offset `i` of every row, then store the 8 accumulators directly into
`output[i .. i+32)`. -/
def minVerticalComponent (F : FPOps α) (i : ℕ) (xs : List α) (mlen : ℕ)
    (out : List α) (dims : ℕ) : List α :=
  let acc := minVerticalRowLoop F xs i dims mlen mlen 0 (zeroAcc8 F)
  mm256StoreuPd (mm256StoreuPd (mm256StoreuPd (mm256StoreuPd
    (mm256StoreuPd (mm256StoreuPd (mm256StoreuPd (mm256StoreuPd
      out i acc.a1) (i+4) acc.a2) (i+8) acc.a3) (i+12) acc.a4)
      (i+16) acc.a5) (i+20) acc.a6) (i+24) acc.a7) (i+28) acc.a8

/-- The `while i < bound { min_vertical_component(i, ...); i += 32 }`
outer loop shared by both vertical kernels.  Depth bound as in
`sumBlockLoop`.  Returns the final loop index and the output buffer. -/
def vert32Loop (F : FPOps α) (xs : List α) (mlen dims bound : ℕ) :
    ℕ → ℕ → List α → ℕ × List α
  | 0, i, out => (i, out)
  | fuel+1, i, out =>
      if i < bound then
        vert32Loop F xs mlen dims bound fuel (i + 32)
          (minVerticalComponent F i xs mlen out dims)
      else (i, out)

/-- Embedding of `f64_xconst_avx2_nofma_sum_vertical::<DIMS>` (release
semantics; its debug assertions are modelled separately by
`f64XconstSumVerticalAsserts`). -/
def f64XconstSumVertical (F : FPOps α) (DIMS : ℕ) (matrix output : List α) :
    List α :=
  (vert32Loop F matrix matrix.length DIMS DIMS DIMS 0 output).2

/-- The inner row loop of the 4-wide remainder path of the vertical
arbitrary-length kernel: `while j < matrix_len { acc += load(matrix + j + i);
j += dims }`.  Depth bound as in `minVerticalRowLoop`. -/
def vertQuadRowLoop (F : FPOps α) (xs : List α) (i dims mlen : ℕ) :
    ℕ → ℕ → Vec4 α → Vec4 α
  | 0, _, acc => acc
  | fuel+1, j, acc =>
      if j < mlen then
        vertQuadRowLoop F xs i dims mlen fuel (j + dims)
          (mm256AddPd F acc (mm256LoaduPd F xs (j + i)))
      else acc

/-- The `while i < bound { ... store(results + i, acc); i += 4 }` 4-wide
remainder loop of the vertical arbitrary-length kernel (bound is
`dims - tail` in the source).  Returns the final loop index and the
output buffer. -/
def vertQuadLoop (F : FPOps α) (xs : List α) (mlen dims bound : ℕ) :
    ℕ → ℕ → List α → ℕ × List α
  | 0, i, out => (i, out)
  | fuel+1, i, out =>
      if i < bound then
        vertQuadLoop F xs mlen dims bound fuel (i + 4)
          (mm256StoreuPd out i
            (vertQuadRowLoop F xs i dims mlen mlen 0 (mm256SetzeroPd F)))
      else (i, out)

/-- The inner row loop of the scalar tail of the vertical
arbitrary-length kernel:
`while j < matrix_len { output[i] += matrix[j + i]; j += dims }`.
The read-modify-write on the output buffer is modelled by threading the
buffer through the loop. -/
def vertScalarRowLoop (F : FPOps α) (xs : List α) (i dims mlen : ℕ) :
    ℕ → ℕ → List α → List α
  | 0, _, out => out
  | fuel+1, j, out =>
      if j < mlen then
        vertScalarRowLoop F xs i dims mlen fuel (j + dims)
          (out.set i (F.add (out.getD i F.zero) (xs.getD (j + i) F.zero)))
      else out

/-- The `while i < dims { ... ; i += 1 }` scalar tail loop of the
vertical arbitrary-length kernel. -/
def vertScalarLoop (F : FPOps α) (xs : List α) (mlen dims bound : ℕ) :
    ℕ → ℕ → List α → List α
  | 0, _, out => out
  | fuel+1, i, out =>
      if i < bound then
        vertScalarLoop F xs mlen dims bound fuel (i + 1)
          (vertScalarRowLoop F xs i dims mlen mlen 0 out)
      else out

/-- Embedding of `f64_xany_avx2_nofma_sum_vertical` (release semantics;
its debug assertion is the `mlen % dims = 0` hypothesis of the theorems
below). -/
def f64XanySumVertical (F : FPOps α) (matrix output : List α) : List α :=
  let dims := output.length
  let mlen := matrix.length
  let offsetFrom := dims % 32
  let s1 := vert32Loop F matrix mlen dims (dims - offsetFrom)
    (dims - offsetFrom) 0 output
  if offsetFrom ≠ 0 then
    let tail := offsetFrom % 4
    let s2 := vertQuadLoop F matrix mlen dims (dims - tail) (dims - s1.1) s1.1 s1.2
    vertScalarLoop F matrix mlen dims dims (dims - s2.1) s2.1 s2.2
  else s1.2

/-! ### Concrete element models -/

/-- Idealized model of an IEEE-754 double under addition: an exact
rational magnitude (`nz q`, with `nz 0` standing for `+0.0`) together
with a distinguished negative zero (`negZero`, standing for `-0.0`).
All finite doubles are rationals, and round-to-nearest addition of two
doubles whose exact sum is nonzero never rounds to zero (every finite
double is an integer multiple of `2 ^ -1074`), so the sign-of-zero
behavior of this model matches IEEE addition exactly: a sum is `-0.0`
precisely when both operands are `-0.0`.  Rounding of nonzero magnitudes,
infinities and NaNs are not modelled. -/
inductive SZ : Type where
  | nz (q : ℚ)
  | negZero
deriving DecidableEq

/-- IEEE round-to-nearest addition on the `SZ` model: magnitudes add
exactly; the result is `-0.0` iff both operands are `-0.0`. -/
def szAdd : SZ → SZ → SZ
  | SZ.negZero, SZ.negZero => SZ.negZero
  | SZ.negZero, SZ.nz b => SZ.nz b
  | SZ.nz a, SZ.negZero => SZ.nz a
  | SZ.nz a, SZ.nz b => SZ.nz (a + b)

/-- The `f64` instance of the kernels used for signed-zero reasoning:
zero is `+0.0`. -/
def szOps : FPOps SZ := ⟨SZ.nz 0, szAdd⟩

/-- Whether an `SZ` value is not `-0.0`. -/
def SZ.isNZ : SZ → Bool
  | SZ.nz _ => true
  | SZ.negZero => false

/-- Exact (infinitely precise) arithmetic instance, for the claims that
compare kernels up to floating-point grouping error: over `ℚ` the
grouping error is exactly zero. -/
def ratOps : FPOps ℚ := ⟨0, (· + ·)⟩

/-- Natural-number instance used only to witness the generic theorems at
concrete inputs. -/
def natOps : FPOps ℕ := ⟨0, (· + ·)⟩

/-! ### Lane view of the registers -/

/-- The lane `k` (0-3) of a register. -/
def Vec4.lane (v : Vec4 α) : ℕ → α
  | 0 => v.e0
  | 1 => v.e1
  | 2 => v.e2
  | _ => v.e3

/-- The register `r` (0-7) of the accumulator set. -/
def Acc8.reg (a : Acc8 α) : ℕ → Vec4 α
  | 0 => a.a1
  | 1 => a.a2
  | 2 => a.a3
  | 3 => a.a4
  | 4 => a.a5
  | 5 => a.a6
  | 6 => a.a7
  | _ => a.a8

/-- The overall lane `k` (0-31) of the accumulator set: lane `k % 4` of
register `k / 4`.  `sum_x64_block` at pointer `p` adds element `p + k`
into overall lane `k`. -/
def Acc8.lane (a : Acc8 α) (k : ℕ) : α := (a.reg (k / 4)).lane (k % 4)

/-! ### Debug assertions -/

/-- The two `debug_assert_eq!` checks of
`f64_xconst_avx2_nofma_sum_horizontal`: `DIMS % 32 == 0` and
`x.len() == DIMS`. -/
def f64XconstSumHorizontalAsserts (DIMS len : ℕ) : Bool :=
  (DIMS % 32 == 0) && (len == DIMS)

/-- The three `debug_assert_eq!` checks of
`f64_xconst_avx2_nofma_sum_vertical`, evaluated in source order:
`DIMS % 32 == 0`, then `matrix.len() % DIMS == 0`, then
`output.len() == DIMS`.  In Rust, evaluating `matrix.len() % DIMS` with
`DIMS = 0` panics (remainder by zero); that panic is modelled by `none`,
while `some b` means the assertions evaluated and `b` says whether all
passed. -/
def f64XconstSumVerticalAsserts (DIMS mlen olen : ℕ) : Option Bool :=
  if DIMS % 32 == 0 then
    if DIMS == 0 then none
    else some ((mlen % DIMS == 0) && (olen == DIMS))
  else some false

/-! ### Reference definitions from the specification -/

/-- The straightforward sequential left-to-right sum the spec compares
the horizontal kernels against. -/
def sequentialSum (F : FPOps α) (xs : List α) : α :=
  List.foldl F.add F.zero xs

/-- Reference column sum, rows `r, r+1, ..., r+n-1`: starting from `v`,
add `matrix[row][j]` (element `row * dims + j`) for each row in
increasing row order. -/
def colSumAux (F : FPOps α) (xs : List α) (dims j : ℕ) :
    ℕ → ℕ → α → α
  | 0, _, v => v
  | n+1, r, v =>
      colSumAux F xs dims j n (r+1) (F.add v (xs.getD (r * dims + j) F.zero))

/-- The independent column-sum reference of the spec: the sum over all
`n` rows of `matrix[row][j]`, accumulated in row order starting from
zero. -/
def colSumRef (F : FPOps α) (xs : List α) (dims n j : ℕ) : α :=
  colSumAux F xs dims j n 0 F.zero

/-- The 4-wide remainder loop as the spec states it: while at least 4
elements remain (`i + 4 ≤ len`), load and add them into accumulator 1
alone. -/
def specSumQuadLoop (F : FPOps α) (xs : List α) (len : ℕ) :
    ℕ → ℕ → Vec4 α → ℕ × Vec4 α
  | 0, i, acc => (i, acc)
  | fuel+1, i, acc =>
      if i + 4 ≤ len then
        specSumQuadLoop F xs len fuel (i + 4) (mm256AddPd F acc (mm256LoaduPd F xs i))
      else (i, acc)

/-- The staged computation claimed for the arbitrary-length horizontal
kernel: `offset = len % 32`; the 32-wide block loop over the first
`len - offset` elements into 8 accumulators; then, while at least 4
elements remain, 4-element groups into accumulator 1 alone; then the
final 0-3 elements one at a time into a scalar carry; finally the rollup
of the 8 accumulators plus the scalar carry (the carry is the left
operand of that final addition, as in the source). -/
def specXanySumHorizontal (F : FPOps α) (x : List α) : α :=
  let len := x.length
  let offset := len % 32
  let s1 := sumBlockLoop F x (len - offset) (len - offset) 0 (zeroAcc8 F)
  let q := specSumQuadLoop F x len (len - s1.1) s1.1 s1.2.a1
  let extra := sumScalarLoop F x len (len - q.1) q.1 F.zero
  F.add extra (sumAvx2Pd F (rollupX8Pd F
    ⟨q.2, s1.2.a2, s1.2.a3, s1.2.a4, s1.2.a5, s1.2.a6, s1.2.a7, s1.2.a8⟩))

/-! ### Direct-store write indices of the vertical arbitrary-length kernel -/

/-- Indices written by one `_mm256_storeu_pd` at `p`. -/
def storeWrites4 (p : ℕ) : List ℕ := [p, p+1, p+2, p+3]

/-- Indices written by the 8 stores of `min_vertical_component` at `i`. -/
def storeWrites32 (i : ℕ) : List ℕ :=
  storeWrites4 i ++ storeWrites4 (i+4) ++ storeWrites4 (i+8) ++
  storeWrites4 (i+12) ++ storeWrites4 (i+16) ++ storeWrites4 (i+20) ++
  storeWrites4 (i+24) ++ storeWrites4 (i+28)

/-- Indices written by the direct stores of the 32-wide outer loop, in
order. -/
def vert32LoopWrites (bound : ℕ) : ℕ → ℕ → List ℕ
  | 0, _ => []
  | fuel+1, i =>
      if i < bound then storeWrites32 i ++ vert32LoopWrites bound fuel (i + 32)
      else []

/-- Indices written by the direct stores of the 4-wide remainder loop, in
order. -/
def vertQuadLoopWrites (bound : ℕ) : ℕ → ℕ → List ℕ
  | 0, _ => []
  | fuel+1, i =>
      if i < bound then storeWrites4 i ++ vertQuadLoopWrites bound fuel (i + 4)
      else []

/-- The indices of all direct vector stores performed by
`f64_xany_avx2_nofma_sum_vertical` on an output buffer of length `dims`,
in order.  The scalar tail columns are updated only by the
read-modify-write `output[col] += matrix[row][col]` and receive no direct
store. -/
def xanyVertStoreWrites (dims : ℕ) : List ℕ :=
  let offsetFrom := dims % 32
  vert32LoopWrites (dims - offsetFrom) (dims - offsetFrom) 0 ++
  (if offsetFrom ≠ 0 then
    vertQuadLoopWrites (dims - offsetFrom % 4) (dims - (dims - offsetFrom))
      (dims - offsetFrom)
  else [])

/-! ### Proof-side helper definitions -/

/-- Scalar view of one column accumulation: starting from `v`, the loop
`while j < mlen { v = add v (xs[j + col]); j += dims }`, with the same
explicit depth bound as the loops it mirrors.  Each accumulator lane of
the vertical row loops evolves exactly like this scalar. -/
def colScan (F : FPOps α) (xs : List α) (dims mlen col : ℕ) :
    ℕ → ℕ → α → α
  | 0, _, v => v
  | fuel+1, j, v =>
      if j < mlen then
        colScan F xs dims mlen col fuel (j + dims) (F.add v (xs.getD (j + col) F.zero))
      else v

/-- Whether all 4 lanes of a register are not `-0.0`. -/
def Vec4.allNZ (v : Vec4 SZ) : Prop :=
  v.e0.isNZ = true ∧ v.e1.isNZ = true ∧ v.e2.isNZ = true ∧ v.e3.isNZ = true

/-- Whether all 32 accumulator lanes are not `-0.0`. -/
def Acc8.allNZ (a : Acc8 SZ) : Prop :=
  a.a1.allNZ ∧ a.a2.allNZ ∧ a.a3.allNZ ∧ a.a4.allNZ ∧
  a.a5.allNZ ∧ a.a6.allNZ ∧ a.a7.allNZ ∧ a.a8.allNZ

/-- Left-ordered indexed partial sum over `ℚ`:
`seg xs p n = ((0 + xs[p]) + xs[p+1]) + ... + xs[p+n-1]`. -/
def seg (xs : List ℚ) (p : ℕ) : ℕ → ℚ
  | 0 => 0
  | n+1 => seg xs p n + xs.getD (p+n) 0

/-- Sum of the 4 lanes of a register over `ℚ`. -/
def v4Total (v : Vec4 ℚ) : ℚ := v.e0 + v.e1 + v.e2 + v.e3

/-- Sum of all 32 accumulator lanes over `ℚ`. -/
def accTotal (a : Acc8 ℚ) : ℚ :=
  v4Total a.a1 + v4Total a.a2 + v4Total a.a3 + v4Total a.a4 +
  v4Total a.a5 + v4Total a.a6 + v4Total a.a7 + v4Total a.a8

/-! ### Basic lemmas about list reads and writes -/

theorem getD_set_ne (l : List α) (a d : α) {p q : ℕ} (h : p ≠ q) :
    (l.set p a).getD q d = l.getD q d := by
  simp [List.getD, List.getElem?_set_ne h]

theorem getD_set_self (l : List α) (a d : α) {p : ℕ} (h : p < l.length) :
    (l.set p a).getD p d = a := by
  simp [List.getD, List.getElem?_set_self h]

theorem storeuPd_length (out : List α) (p : ℕ) (v : Vec4 α) :
    (mm256StoreuPd out p v).length = out.length := by
  simp [mm256StoreuPd]

theorem getD_eq_default_of_le (l : List α) (d : α) {q : ℕ} (h : l.length ≤ q) :
    l.getD q d = d := by
  simp [List.getD, List.getElem?_eq_none h]

/-- One vector store, described by its effect on an arbitrary read. -/
theorem storeuPd_getD (out : List α) (p : ℕ) (v : Vec4 α) (q : ℕ) (d : α) :
    (mm256StoreuPd out p v).getD q d =
      if p ≤ q ∧ q < p + 4 ∧ q < out.length then v.lane (q - p)
      else out.getD q d := by
  rcases Nat.lt_or_ge q out.length with hqlen | hqlen
  · by_cases h0 : q = p
    · subst h0
      rw [mm256StoreuPd, getD_set_ne, getD_set_ne, getD_set_ne, getD_set_self]
      · simp [Vec4.lane, hqlen]
      · exact hqlen
      · omega
      · omega
      · omega
    · by_cases h1 : q = p + 1
      · subst h1
        rw [mm256StoreuPd, getD_set_ne, getD_set_ne, getD_set_self]
        · have he : p + 1 - p = 1 := by omega
          simp [Vec4.lane, he, hqlen]
        · simpa using hqlen
        · omega
        · omega
      · by_cases h2 : q = p + 2
        · subst h2
          rw [mm256StoreuPd, getD_set_ne, getD_set_self]
          · have he : p + 2 - p = 2 := by omega
            simp [Vec4.lane, he, hqlen]
          · simpa using hqlen
          · omega
        · by_cases h3 : q = p + 3
          · subst h3
            rw [mm256StoreuPd, getD_set_self]
            · have he : p + 3 - p = 3 := by omega
              simp [Vec4.lane, he, hqlen]
            · simpa using hqlen
          · rw [mm256StoreuPd, getD_set_ne, getD_set_ne, getD_set_ne, getD_set_ne]
            · have hno : ¬ (p ≤ q ∧ q < p + 4 ∧ q < out.length) := by omega
              simp [hno]
            · omega
            · omega
            · omega
            · omega
  · have hno : ¬ (p ≤ q ∧ q < p + 4 ∧ q < out.length) := by omega
    rw [getD_eq_default_of_le _ _ (by rw [storeuPd_length]; exact hqlen),
      getD_eq_default_of_le _ _ hqlen] at *
    simp [hno, getD_eq_default_of_le _ _ hqlen]

/-! ### Lane lemmas -/

theorem zeroVec4_lane (F : FPOps α) (m : ℕ) :
    (mm256SetzeroPd F).lane m = F.zero := by
  match m with
  | 0 => rfl
  | 1 => rfl
  | 2 => rfl
  | n+3 => rfl

theorem zeroAcc8_reg (F : FPOps α) (r : ℕ) :
    (zeroAcc8 F).reg r = mm256SetzeroPd F := by
  match r with
  | 0 => rfl
  | 1 => rfl
  | 2 => rfl
  | 3 => rfl
  | 4 => rfl
  | 5 => rfl
  | 6 => rfl
  | n+7 => rfl

theorem zeroAcc8_lane (F : FPOps α) (k : ℕ) :
    (zeroAcc8 F).lane k = F.zero := by
  rw [Acc8.lane, zeroAcc8_reg, zeroVec4_lane]

/-- The central indexing fact: `sum_x64_block` at pointer `p` adds
element `p + k` into overall accumulator lane `k`, for every `k < 32`. -/
theorem sumX64Block_lane (F : FPOps α) (xs : List α) (p : ℕ) (acc : Acc8 α)
    (k : ℕ) (hk : k < 32) :
    (sumX64Block F xs p acc).lane k = F.add (acc.lane k) (xs.getD (p + k) F.zero) := by
  interval_cases k <;>
    simp [Acc8.lane, Acc8.reg, Vec4.lane, sumX64Block, mm256AddPd, mm256LoaduPd,
      offsetsAvx2Pd, CHUNK_0, CHUNK_1, Nat.add_assoc]

/-- Lane view of a 4-wide add of a load, for `k < 4`. -/
theorem addLoad_lane (F : FPOps α) (xs : List α) (p : ℕ) (v : Vec4 α)
    (k : ℕ) (hk : k < 4) :
    (mm256AddPd F v (mm256LoaduPd F xs p)).lane k
      = F.add (v.lane k) (xs.getD (p + k) F.zero) := by
  interval_cases k <;> simp [Vec4.lane, mm256AddPd, mm256LoaduPd]

/-! ### Characterization of the vertical row loops -/

/-- Each accumulator lane `k` of the 32-wide row loop evolves exactly
like the scalar column scan of column `i + k`. -/
theorem minVerticalRowLoop_lane (F : FPOps α) (xs : List α) (i dims mlen k : ℕ)
    (hk : k < 32) :
    ∀ (fuel j : ℕ) (acc : Acc8 α),
      (minVerticalRowLoop F xs i dims mlen fuel j acc).lane k
        = colScan F xs dims mlen (i + k) fuel j (acc.lane k) := by
  intro fuel
  induction fuel with
  | zero => intro j acc; rfl
  | succ n ih =>
      intro j acc
      simp only [minVerticalRowLoop, colScan]
      by_cases hj : j < mlen
      · simp only [hj, if_true]
        rw [ih, sumX64Block_lane F xs _ acc k hk, Nat.add_assoc]
      · simp [hj]

/-- Each lane `k` of the 4-wide row loop evolves exactly like the scalar
column scan of column `i + k`. -/
theorem vertQuadRowLoop_lane (F : FPOps α) (xs : List α) (i dims mlen k : ℕ)
    (hk : k < 4) :
    ∀ (fuel j : ℕ) (acc : Vec4 α),
      (vertQuadRowLoop F xs i dims mlen fuel j acc).lane k
        = colScan F xs dims mlen (i + k) fuel j (acc.lane k) := by
  intro fuel
  induction fuel with
  | zero => intro j acc; rfl
  | succ n ih =>
      intro j acc
      simp only [vertQuadRowLoop, colScan]
      by_cases hj : j < mlen
      · simp only [hj, if_true]
        rw [ih, addLoad_lane F xs _ acc k hk, Nat.add_assoc]
      · simp [hj]

theorem vertScalarRowLoop_length (F : FPOps α) (xs : List α) (i dims mlen : ℕ) :
    ∀ (fuel j : ℕ) (out : List α),
      (vertScalarRowLoop F xs i dims mlen fuel j out).length = out.length := by
  intro fuel
  induction fuel with
  | zero => intro j out; rfl
  | succ n ih =>
      intro j out
      simp only [vertScalarRowLoop]
      by_cases hj : j < mlen
      · simp only [hj, if_true]
        rw [ih, List.length_set]
      · simp [hj]

theorem vertScalarRowLoop_getD_ne (F : FPOps α) (xs : List α) (i dims mlen : ℕ)
    (t : ℕ) (ht : t ≠ i) (d : α) :
    ∀ (fuel j : ℕ) (out : List α),
      (vertScalarRowLoop F xs i dims mlen fuel j out).getD t d = out.getD t d := by
  intro fuel
  induction fuel with
  | zero => intro j out; rfl
  | succ n ih =>
      intro j out
      simp only [vertScalarRowLoop]
      by_cases hj : j < mlen
      · simp only [hj, if_true]
        rw [ih, getD_set_ne _ _ _ (Ne.symm ht)]
      · simp [hj]

/-- The scalar tail's read-modify-write column evolves exactly like the
scalar column scan of column `i`, starting from the output buffer's
current content. -/
theorem vertScalarRowLoop_getD_self (F : FPOps α) (xs : List α) (i dims mlen : ℕ) :
    ∀ (fuel j : ℕ) (out : List α), i < out.length →
      (vertScalarRowLoop F xs i dims mlen fuel j out).getD i F.zero
        = colScan F xs dims mlen i fuel j (out.getD i F.zero) := by
  intro fuel
  induction fuel with
  | zero => intro j out _; rfl
  | succ n ih =>
      intro j out hi
      simp only [vertScalarRowLoop, colScan]
      by_cases hj : j < mlen
      · simp only [hj, if_true]
        rw [ih _ _ (by simpa using hi), getD_set_self _ _ _ hi]
      · simp [hj]

/-- A column scan that visits the rows `r, r+1, ...` of an `N × dims`
matrix coincides with the row-indexed reference accumulation. -/
theorem colScan_eq_colSumAux (F : FPOps α) (xs : List α) (dims col mlen N : ℕ)
    (hm : mlen = N * dims) (hd : 0 < dims) :
    ∀ (fuel r : ℕ) (v : α), r ≤ N → N - r ≤ fuel →
      colScan F xs dims mlen col fuel (r * dims) v
        = colSumAux F xs dims col (N - r) r v := by
  intro fuel
  induction fuel with
  | zero =>
      intro r v hr hfuel
      have h0 : N - r = 0 := by omega
      rw [h0]
      rfl
  | succ n ih =>
      intro r v hr hfuel
      simp only [colScan]
      by_cases hrN : r < N
      · have hlt : r * dims < mlen := by
          rw [hm]
          exact Nat.mul_lt_mul_right hd |>.mpr hrN
        simp only [hlt, if_true]
        rw [show r * dims + dims = (r + 1) * dims from by ring]
        rw [ih (r + 1) _ (by omega) (by omega)]
        have hNr : N - r = (N - (r + 1)) + 1 := by omega
        rw [hNr]
        simp only [colSumAux]
      · have hr' : r = N := by omega
        have hge : ¬ r * dims < mlen := by
          rw [hm, hr']
          omega
        simp only [hge, if_false]
        have h0 : N - r = 0 := by omega
        rw [h0]
        rfl

/-! ### Effect of `min_vertical_component` on the output buffer -/

theorem minVerticalComponent_length (F : FPOps α) (i : ℕ) (xs : List α)
    (mlen : ℕ) (out : List α) (dims : ℕ) :
    (minVerticalComponent F i xs mlen out dims).length = out.length := by
  simp [minVerticalComponent, storeuPd_length]

theorem minVerticalComponent_getD_frame (F : FPOps α) (i : ℕ) (xs : List α)
    (mlen : ℕ) (out : List α) (dims t : ℕ) (h : t < i ∨ i + 32 ≤ t) :
    (minVerticalComponent F i xs mlen out dims).getD t F.zero = out.getD t F.zero := by
  simp only [minVerticalComponent, storeuPd_getD, storeuPd_length]
  split_ifs <;> first | rfl | omega

/-- Inside the stored window, `min_vertical_component` writes the lane
`t - i` of the row-loop accumulators at position `t`. -/
theorem minVerticalComponent_getD_in (F : FPOps α) (i : ℕ) (xs : List α)
    (mlen : ℕ) (out : List α) (dims t : ℕ)
    (h1 : i ≤ t) (h2 : t < i + 32) (hlen : i + 32 ≤ out.length) :
    (minVerticalComponent F i xs mlen out dims).getD t F.zero
      = (minVerticalRowLoop F xs i dims mlen mlen 0 (zeroAcc8 F)).lane (t - i) := by
  simp only [minVerticalComponent, storeuPd_getD, storeuPd_length]
  rw [Acc8.lane]
  split_ifs
  · rw [show (t - i) / 4 = 7 from by omega, show (t - i) % 4 = t - (i + 28) from by omega]
    rfl
  · rw [show (t - i) / 4 = 6 from by omega, show (t - i) % 4 = t - (i + 24) from by omega]
    rfl
  · rw [show (t - i) / 4 = 5 from by omega, show (t - i) % 4 = t - (i + 20) from by omega]
    rfl
  · rw [show (t - i) / 4 = 4 from by omega, show (t - i) % 4 = t - (i + 16) from by omega]
    rfl
  · rw [show (t - i) / 4 = 3 from by omega, show (t - i) % 4 = t - (i + 12) from by omega]
    rfl
  · rw [show (t - i) / 4 = 2 from by omega, show (t - i) % 4 = t - (i + 8) from by omega]
    rfl
  · rw [show (t - i) / 4 = 1 from by omega, show (t - i) % 4 = t - (i + 4) from by omega]
    rfl
  · rw [show (t - i) / 4 = 0 from by omega, show (t - i) % 4 = t - i from by omega]
    rfl
  · omega

/-! ### Characterization of the vertical outer loops -/

/-- Full description of the 32-wide outer loop: it exits with index
`bound`, preserves the buffer length, leaves all positions outside
`[i, bound)` untouched, and writes into each position `t ∈ [i, bound)`
the column scan of column `t` over all rows, started from zero. -/
theorem vert32Loop_spec (F : FPOps α) (xs : List α) (mlen dims bound : ℕ) :
    ∀ (fuel i : ℕ) (out : List α),
      (bound - i) % 32 = 0 → i ≤ bound → bound - i ≤ fuel → bound ≤ out.length →
      ((vert32Loop F xs mlen dims bound fuel i out).1 = bound
      ∧ (vert32Loop F xs mlen dims bound fuel i out).2.length = out.length
      ∧ (∀ t, t < i ∨ bound ≤ t →
          (vert32Loop F xs mlen dims bound fuel i out).2.getD t F.zero
            = out.getD t F.zero)
      ∧ (∀ t, i ≤ t → t < bound →
          (vert32Loop F xs mlen dims bound fuel i out).2.getD t F.zero
            = colScan F xs dims mlen t mlen 0 F.zero)) := by
  intro fuel
  induction fuel with
  | zero =>
      intro i out hmod hle hfuel hlen
      have hib : i = bound := by omega
      subst hib
      exact ⟨rfl, rfl, fun t _ => rfl, fun t h1 h2 => by omega⟩
  | succ n ih =>
      intro i out hmod hle hfuel hlen
      simp only [vert32Loop]
      by_cases hib : i < bound
      · simp only [hib, if_true]
        have h32 : i + 32 ≤ bound := by omega
        obtain ⟨ih1, ih2, ih3, ih4⟩ := ih (i + 32) (minVerticalComponent F i xs mlen out dims)
          (by omega) (by omega) (by omega)
          (by rw [minVerticalComponent_length]; exact hlen)
        refine ⟨ih1, by rw [ih2, minVerticalComponent_length], ?_, ?_⟩
        · intro t ht
          rw [ih3 t (by omega), minVerticalComponent_getD_frame]
          omega
        · intro t ht1 ht2
          by_cases htw : t < i + 32
          · rw [ih3 t (by omega),
              minVerticalComponent_getD_in F i xs mlen out dims t ht1 htw (by omega),
              minVerticalRowLoop_lane F xs i dims mlen (t - i) (by omega),
              zeroAcc8_lane, show i + (t - i) = t from by omega]
          · exact ih4 t (by omega) ht2
      · simp only [hib, if_false]
        have hib' : i = bound := by omega
        subst hib'
        exact ⟨by trivial, by trivial, fun t _ => by trivial, fun t h1 h2 => by omega⟩

/-- Full description of the 4-wide remainder loop of the vertical
arbitrary-length kernel, in the same format as `vert32Loop_spec`. -/
theorem vertQuadLoop_spec (F : FPOps α) (xs : List α) (mlen dims bound : ℕ) :
    ∀ (fuel i : ℕ) (out : List α),
      (bound - i) % 4 = 0 → i ≤ bound → bound - i ≤ fuel → bound ≤ out.length →
      ((vertQuadLoop F xs mlen dims bound fuel i out).1 = bound
      ∧ (vertQuadLoop F xs mlen dims bound fuel i out).2.length = out.length
      ∧ (∀ t, t < i ∨ bound ≤ t →
          (vertQuadLoop F xs mlen dims bound fuel i out).2.getD t F.zero
            = out.getD t F.zero)
      ∧ (∀ t, i ≤ t → t < bound →
          (vertQuadLoop F xs mlen dims bound fuel i out).2.getD t F.zero
            = colScan F xs dims mlen t mlen 0 F.zero)) := by
  intro fuel
  induction fuel with
  | zero =>
      intro i out hmod hle hfuel hlen
      have hib : i = bound := by omega
      subst hib
      exact ⟨rfl, rfl, fun t _ => rfl, fun t h1 h2 => by omega⟩
  | succ n ih =>
      intro i out hmod hle hfuel hlen
      simp only [vertQuadLoop]
      by_cases hib : i < bound
      · simp only [hib, if_true]
        have h4 : i + 4 ≤ bound := by omega
        obtain ⟨ih1, ih2, ih3, ih4⟩ := ih (i + 4)
          (mm256StoreuPd out i (vertQuadRowLoop F xs i dims mlen mlen 0 (mm256SetzeroPd F)))
          (by omega) (by omega) (by omega) (by rw [storeuPd_length]; exact hlen)
        refine ⟨ih1, by rw [ih2, storeuPd_length], ?_, ?_⟩
        · intro t ht
          rw [ih3 t (by omega), storeuPd_getD]
          have hno : ¬ (i ≤ t ∧ t < i + 4 ∧ t < out.length) := by omega
          simp [hno]
        · intro t ht1 ht2
          by_cases htw : t < i + 4
          · rw [ih3 t (by omega), storeuPd_getD]
            have hyes : i ≤ t ∧ t < i + 4 ∧ t < out.length := by omega
            simp only [hyes, and_self, if_true]
            rw [vertQuadRowLoop_lane F xs i dims mlen (t - i) (by omega),
              zeroVec4_lane, show i + (t - i) = t from by omega]
          · exact ih4 t (by omega) ht2
      · simp only [hib, if_false]
        have hib' : i = bound := by omega
        subst hib'
        exact ⟨by trivial, by trivial, fun t _ => by trivial, fun t h1 h2 => by omega⟩

/-- Full description of the scalar tail loop of the vertical
arbitrary-length kernel: positions outside `[i, bound)` are untouched,
and each position `t ∈ [i, bound)` becomes the column scan of column `t`
started from the buffer's existing content at `t`. -/
theorem vertScalarLoop_spec (F : FPOps α) (xs : List α) (mlen dims bound : ℕ) :
    ∀ (fuel i : ℕ) (out : List α),
      bound - i ≤ fuel → bound ≤ out.length →
      ((vertScalarLoop F xs mlen dims bound fuel i out).length = out.length
      ∧ (∀ t, t < i ∨ bound ≤ t →
          (vertScalarLoop F xs mlen dims bound fuel i out).getD t F.zero
            = out.getD t F.zero)
      ∧ (∀ t, i ≤ t → t < bound →
          (vertScalarLoop F xs mlen dims bound fuel i out).getD t F.zero
            = colScan F xs dims mlen t mlen 0 (out.getD t F.zero))) := by
  intro fuel
  induction fuel with
  | zero =>
      intro i out hfuel hlen
      exact ⟨rfl, fun t _ => rfl, fun t h1 h2 => by omega⟩
  | succ n ih =>
      intro i out hfuel hlen
      simp only [vertScalarLoop]
      by_cases hib : i < bound
      · simp only [hib, if_true]
        obtain ⟨ih1, ih2, ih3⟩ := ih (i + 1)
          (vertScalarRowLoop F xs i dims mlen mlen 0 out)
          (by omega) (by rw [vertScalarRowLoop_length]; exact hlen)
        refine ⟨by rw [ih1, vertScalarRowLoop_length], ?_, ?_⟩
        · intro t ht
          rw [ih2 t (by omega), vertScalarRowLoop_getD_ne F xs i dims mlen t (by omega)]
        · intro t ht1 ht2
          by_cases hti : t = i
          · subst hti
            rw [ih2 t (by omega), vertScalarRowLoop_getD_self F xs t dims mlen _ _ _ (by omega)]
          · rw [ih3 t (by omega) ht2, vertScalarRowLoop_getD_ne F xs i dims mlen t hti]
      · simp only [hib, if_false]
        exact ⟨by trivial, fun t _ => by trivial, fun t h1 h2 => by omega⟩

/-! ### Master value lemmas for the vertical kernels -/

/-- Every output position `j < DIMS` of the fixed-dimension vertical
kernel holds the column scan of column `j` over all rows. -/
theorem f64XconstSumVertical_getD (F : FPOps α) (DIMS : ℕ) (matrix out : List α)
    (h32 : DIMS % 32 = 0) (hout : out.length = DIMS) (j : ℕ) (hj : j < DIMS) :
    (f64XconstSumVertical F DIMS matrix out).getD j F.zero
      = colScan F matrix DIMS matrix.length j matrix.length 0 F.zero := by
  simp only [f64XconstSumVertical]
  obtain ⟨h1, h2, h3, h4⟩ := vert32Loop_spec F matrix matrix.length DIMS DIMS DIMS 0 out
    (by omega) (by omega) (by omega) (by omega)
  exact h4 j (by omega) hj

/-- Full description of the arbitrary-length vertical kernel: the length
is preserved; positions before `dims - dims % 4` hold the column scan
started from zero (a direct overwrite, ignoring the buffer's prior
contents); the final `dims % 4` positions hold the column scan started
from the buffer's prior content (the read-modify-write tail). -/
theorem f64XanySumVertical_spec (F : FPOps α) (matrix out : List α) :
    (f64XanySumVertical F matrix out).length = out.length
    ∧ ∀ t, t < out.length →
        (f64XanySumVertical F matrix out).getD t F.zero
          = if t < out.length - out.length % 4 then
              colScan F matrix out.length matrix.length t matrix.length 0 F.zero
            else
              colScan F matrix out.length matrix.length t matrix.length 0
                (out.getD t F.zero) := by
  simp only [f64XanySumVertical]
  obtain ⟨e1, l1, f1, v1⟩ := vert32Loop_spec F matrix matrix.length out.length
    (out.length - out.length % 32) (out.length - out.length % 32) 0 out
    (by omega) (by omega) (by omega) (by omega)
  by_cases hof : out.length % 32 = 0
  · rw [if_neg (by omega)]
    constructor
    · rw [l1]
    · intro t ht
      rw [if_pos (by omega)]
      exact v1 t (by omega) (by omega)
  · rw [if_pos (by omega), e1]
    obtain ⟨e2, l2, f2, v2⟩ := vertQuadLoop_spec F matrix matrix.length out.length
      (out.length - out.length % 32 % 4) (out.length - (out.length - out.length % 32))
      (out.length - out.length % 32)
      (vert32Loop F matrix matrix.length out.length (out.length - out.length % 32)
        (out.length - out.length % 32) 0 out).2
      (by omega) (by omega) (by omega) (by rw [l1]; omega)
    rw [e2]
    obtain ⟨l3, f3, v3⟩ := vertScalarLoop_spec F matrix matrix.length out.length
      out.length (out.length - (out.length - out.length % 32 % 4))
      (out.length - out.length % 32 % 4)
      (vertQuadLoop F matrix matrix.length out.length
        (out.length - out.length % 32 % 4) (out.length - (out.length - out.length % 32))
        (out.length - out.length % 32)
        (vert32Loop F matrix matrix.length out.length (out.length - out.length % 32)
          (out.length - out.length % 32) 0 out).2).2
      (by omega) (by rw [l2, l1])
    constructor
    · rw [l3, l2, l1]
    · intro t ht
      by_cases h1 : t < out.length - out.length % 32
      · rw [if_pos (by omega), f3 t (by omega), f2 t (by omega), v1 t (by omega) h1]
      · by_cases h2 : t < out.length - out.length % 32 % 4
        · rw [if_pos (by omega), f3 t (by omega), v2 t (by omega) (by omega)]
        · rw [if_neg (by omega), v3 t (by omega) (by omega), f2 t (by omega),
            f1 t (by omega)]

/-! ### Claim C1 -/

/-- Claim C1: for an `N × D` matrix with `D` a positive multiple of 32,
matrix length `N * D` and output length `D`, after the fixed-dimension
vertical kernel the output at column `j` equals the independent
column-sum reference: the sum over all rows of `matrix[row][j]`,
accumulated in row order starting from zero.  The agreement is exact and
holds for an arbitrary addition operation (in particular for IEEE
addition), because the kernel performs the additions of each column in
exactly the reference order. -/
theorem claim_C1 (F : FPOps α) (matrix out : List α) (DIMS N j : ℕ)
    (h32 : DIMS % 32 = 0) (hm : matrix.length = N * DIMS)
    (hout : out.length = DIMS) (hj : j < DIMS) :
    (f64XconstSumVertical F DIMS matrix out).getD j F.zero
      = colSumRef F matrix DIMS N j := by
  rw [f64XconstSumVertical_getD F DIMS matrix out h32 hout j hj, colSumRef]
  have hd : 0 < DIMS := by omega
  have hN : N ≤ N * DIMS := Nat.le_mul_of_pos_right N hd
  have h := colScan_eq_colSumAux F matrix DIMS j matrix.length N hm hd
    matrix.length 0 F.zero (by omega) (by omega)
  simpa using h

/-- Witness for C1 at a concrete input: a 2 × 32 matrix of naturals. -/
theorem claim_C1_witness :
    ((32:ℕ) % 32 = 0 ∧ (List.range 64).length = 2 * 32
      ∧ (List.replicate 32 (0:ℕ)).length = 32 ∧ (5:ℕ) < 32)
    ∧ (f64XconstSumVertical natOps 32 (List.range 64)
        (List.replicate 32 0)).getD 5 natOps.zero
      = colSumRef natOps (List.range 64) 32 2 5 :=
  ⟨⟨by decide, by decide, by decide, by decide⟩,
   claim_C1 natOps (List.range 64) (List.replicate 32 0) 32 2 5
     (by decide) (by decide) (by decide) (by decide)⟩

/-! ### Counting the direct stores of the vertical arbitrary-length kernel -/

theorem count_range' (i n j : ℕ) :
    (List.range' i n).count j = if i ≤ j ∧ j < i + n then 1 else 0 := by
  split_ifs with h
  · exact List.count_eq_one_of_mem (List.nodup_range' i n)
      (List.mem_range'_1.mpr ⟨h.1, h.2⟩)
  · exact List.count_eq_zero_of_not_mem (fun hm => h (List.mem_range'_1.mp hm))

theorem vert32LoopWrites_count (bound : ℕ) :
    ∀ (fuel i : ℕ), (bound - i) % 32 = 0 → i ≤ bound → bound - i ≤ fuel →
      ∀ j, (vert32LoopWrites bound fuel i).count j
        = if i ≤ j ∧ j < bound then 1 else 0 := by
  intro fuel
  induction fuel with
  | zero =>
      intro i h1 h2 h3 j
      simp only [vert32LoopWrites, List.count_nil]
      rw [if_neg (by omega)]
  | succ n ih =>
      intro i h1 h2 h3 j
      simp only [vert32LoopWrites]
      by_cases hib : i < bound
      · simp only [hib, if_true, List.count_append]
        rw [ih (i + 32) (by omega) (by omega) (by omega) j,
          show storeWrites32 i = List.range' i 32 from rfl, count_range']
        split_ifs <;> omega
      · simp only [hib, if_false, List.count_nil]
        rw [if_neg (by omega)]

theorem vertQuadLoopWrites_count (bound : ℕ) :
    ∀ (fuel i : ℕ), (bound - i) % 4 = 0 → i ≤ bound → bound - i ≤ fuel →
      ∀ j, (vertQuadLoopWrites bound fuel i).count j
        = if i ≤ j ∧ j < bound then 1 else 0 := by
  intro fuel
  induction fuel with
  | zero =>
      intro i h1 h2 h3 j
      simp only [vertQuadLoopWrites, List.count_nil]
      rw [if_neg (by omega)]
  | succ n ih =>
      intro i h1 h2 h3 j
      simp only [vertQuadLoopWrites]
      by_cases hib : i < bound
      · simp only [hib, if_true, List.count_append]
        rw [ih (i + 4) (by omega) (by omega) (by omega) j,
          show storeWrites4 i = List.range' i 4 from rfl, count_range']
        split_ifs <;> omega
      · simp only [hib, if_false, List.count_nil]
        rw [if_neg (by omega)]

/-- Each of the first `dims - dims % 4` output positions receives exactly
one direct vector store; the final `dims % 4` positions receive none. -/
theorem xanyVertStoreWrites_count (dims j : ℕ) :
    (xanyVertStoreWrites dims).count j
      = if j < dims - dims % 4 then 1 else 0 := by
  simp only [xanyVertStoreWrites, List.count_append]
  rw [vert32LoopWrites_count (dims - dims % 32) (dims - dims % 32) 0
    (by omega) (by omega) (by omega) j]
  by_cases hof : dims % 32 = 0
  · rw [if_neg (show ¬ dims % 32 ≠ 0 from by omega), List.count_nil]
    split_ifs <;> omega
  · rw [if_pos (show dims % 32 ≠ 0 from hof),
      vertQuadLoopWrites_count (dims - dims % 32 % 4) (dims - (dims - dims % 32))
        (dims - dims % 32) (by omega) (by omega) (by omega) j]
    split_ifs <;> omega

/-! ### Claim C3 -/

/-- Claim C3: in the arbitrary-length vertical kernel, every output slot
is written by exactly one direct vector store except the final
`dims % 4` columns, which receive none (third conjunct); the columns
handled by the 32-wide and 4-wide paths are overwritten by a direct
store, so their final value is independent of the output buffer's
initial contents (first conjunct); only the final `dims % 4` columns are
updated by `output[col] += matrix[row][col]` across the rows, so their
final value starts from the buffer's prior content and those positions
must be zero beforehand for the result to be the column sum (second
conjunct). -/
theorem claim_C3 (F : FPOps α) (matrix out out2 : List α) (N : ℕ)
    (hlen : out2.length = out.length)
    (hm : matrix.length = N * out.length)
    (hd : 0 < out.length) :
    (∀ j, j < out.length - out.length % 4 →
        (f64XanySumVertical F matrix out).getD j F.zero
          = (f64XanySumVertical F matrix out2).getD j F.zero)
    ∧ (∀ j, out.length - out.length % 4 ≤ j → j < out.length →
        (f64XanySumVertical F matrix out).getD j F.zero
          = colSumAux F matrix out.length j N 0 (out.getD j F.zero))
    ∧ (∀ j, (xanyVertStoreWrites out.length).count j
          = if j < out.length - out.length % 4 then 1 else 0) := by
  obtain ⟨len1, val1⟩ := f64XanySumVertical_spec F matrix out
  obtain ⟨len2, val2⟩ := f64XanySumVertical_spec F matrix out2
  rw [hlen] at val2
  refine ⟨?_, ?_, fun j => xanyVertStoreWrites_count out.length j⟩
  · intro j hj
    rw [val1 j (by omega), val2 j (by omega), if_pos hj, if_pos hj]
  · intro j hj1 hj2
    rw [val1 j hj2, if_neg (by omega)]
    have hdd : 0 < out.length := hd
    have hN : N ≤ N * out.length := Nat.le_mul_of_pos_right N hdd
    have h := colScan_eq_colSumAux F matrix out.length j matrix.length N hm hdd
      matrix.length 0 (out.getD j F.zero) (by omega) (by omega)
    simpa using h

/-- Witness for C3 at a concrete input: a 2 × 5 matrix of naturals with
two different initial output buffers. -/
theorem claim_C3_witness :
    ((List.replicate 5 (3:ℕ)).length = (List.replicate 5 (100:ℕ)).length
      ∧ (List.range 10).length = 2 * (List.replicate 5 (100:ℕ)).length
      ∧ 0 < (List.replicate 5 (100:ℕ)).length)
    ∧ ((∀ j, j < (List.replicate 5 (100:ℕ)).length - (List.replicate 5 (100:ℕ)).length % 4 →
        (f64XanySumVertical natOps (List.range 10) (List.replicate 5 100)).getD j natOps.zero
          = (f64XanySumVertical natOps (List.range 10) (List.replicate 5 3)).getD j natOps.zero)
    ∧ (∀ j, (List.replicate 5 (100:ℕ)).length - (List.replicate 5 (100:ℕ)).length % 4 ≤ j →
        j < (List.replicate 5 (100:ℕ)).length →
        (f64XanySumVertical natOps (List.range 10) (List.replicate 5 100)).getD j natOps.zero
          = colSumAux natOps (List.range 10) (List.replicate 5 (100:ℕ)).length j 2 0
              ((List.replicate 5 (100:ℕ)).getD j natOps.zero))
    ∧ (∀ j, (xanyVertStoreWrites (List.replicate 5 (100:ℕ)).length).count j
          = if j < (List.replicate 5 (100:ℕ)).length - (List.replicate 5 (100:ℕ)).length % 4
            then 1 else 0)) :=
  ⟨⟨by decide, by decide, by decide⟩,
   claim_C3 natOps (List.range 10) (List.replicate 5 100) (List.replicate 5 3) 2
     (by decide) (by decide) (by decide)⟩

/-! ### Claim C4 -/

/-- Counterexample to claim C4 as stated: for the zero-row matrix and a
32-column output buffer holding 1.0 everywhere, the fixed-dimension
vertical kernel does not leave the buffer as given — it stores the zero
accumulators, overwriting every column with +0.0. -/
theorem claim_C4_counterexample :
    f64XconstSumVertical szOps 32 ([] : List SZ) (List.replicate 32 (SZ.nz 1))
      ≠ List.replicate 32 (SZ.nz 1) := by
  decide

/-- Amended claim C4: for a zero-row matrix the vertical kernels do
write into the output buffer.  The fixed-dimension kernel overwrites
every column with +0.0 (the zero accumulators are stored even when the
row loop runs zero times); the arbitrary-length kernel overwrites every
column except the final `dims % 4` scalar-tail columns, which alone are
left as given.  The buffer is therefore left "as given" only when it was
pre-zeroed with +0.0. -/
theorem claim_C4 (DIMS : ℕ) (out out2 : List SZ)
    (h32 : DIMS % 32 = 0) (hlen : out.length = DIMS) :
    (∀ j, j < DIMS →
        (f64XconstSumVertical szOps DIMS ([] : List SZ) out).getD j (SZ.nz 0)
          = SZ.nz 0)
    ∧ (∀ j, j < out2.length →
        (f64XanySumVertical szOps ([] : List SZ) out2).getD j (SZ.nz 0)
          = if j < out2.length - out2.length % 4 then SZ.nz 0
            else out2.getD j (SZ.nz 0)) := by
  constructor
  · intro j hj
    rw [show SZ.nz 0 = szOps.zero from rfl,
      f64XconstSumVertical_getD szOps DIMS [] out h32 hlen j hj]
    rfl
  · intro j hj
    obtain ⟨len2, val2⟩ := f64XanySumVertical_spec szOps ([] : List SZ) out2
    rw [show SZ.nz 0 = szOps.zero from rfl, val2 j hj]
    split_ifs <;> rfl

/-- Witness for the amended C4. -/
theorem claim_C4_witness :
    ((32:ℕ) % 32 = 0 ∧ (List.replicate 32 (SZ.nz 5)).length = 32)
    ∧ ((∀ j, j < 32 →
        (f64XconstSumVertical szOps 32 ([] : List SZ)
          (List.replicate 32 (SZ.nz 5))).getD j (SZ.nz 0) = SZ.nz 0)
    ∧ (∀ j, j < (List.replicate 5 (SZ.nz 7)).length →
        (f64XanySumVertical szOps ([] : List SZ)
          (List.replicate 5 (SZ.nz 7))).getD j (SZ.nz 0)
          = if j < (List.replicate 5 (SZ.nz 7)).length
                - (List.replicate 5 (SZ.nz 7)).length % 4
            then SZ.nz 0
            else (List.replicate 5 (SZ.nz 7)).getD j (SZ.nz 0))) :=
  ⟨⟨by decide, by decide⟩,
   claim_C4 32 (List.replicate 32 (SZ.nz 5)) (List.replicate 5 (SZ.nz 7))
     (by decide) (by decide)⟩

/-! ### Claim C2 -/

/-- The 32-wide block loop exits with loop index exactly `bound` when it
starts at most `bound` away, `32 ∣ bound - i`, and the depth bound is
adequate. -/
theorem sumBlockLoop_fst (F : FPOps α) (xs : List α) (bound : ℕ) :
    ∀ (fuel i : ℕ) (acc : Acc8 α),
      (bound - i) % 32 = 0 → i ≤ bound → bound - i ≤ fuel →
      (sumBlockLoop F xs bound fuel i acc).1 = bound := by
  intro fuel
  induction fuel with
  | zero =>
      intro i acc h1 h2 h3
      have : i = bound := by omega
      simp [sumBlockLoop, this]
  | succ n ih =>
      intro i acc h1 h2 h3
      simp only [sumBlockLoop]
      by_cases hib : i < bound
      · simp only [hib, if_true]
        exact ih (i + 32) _ (by omega) (by omega) (by omega)
      · have : i = bound := by omega
        simp [hib, this]

/-- On the indices the 4-wide remainder loop can actually reach (those
with `len - i ≡ tail (mod 4)`), the source's guard `i < len - tail` is
equivalent to the spec's guard "at least 4 elements remain"
(`i + 4 ≤ len`), so the two loops coincide. -/
theorem quadLoop_eq_spec (F : FPOps α) (xs : List α) (len tail : ℕ)
    (htail : tail < 4) :
    ∀ (fuel i : ℕ) (acc : Vec4 α), (len - i) % 4 = tail →
      sumQuadLoop F xs (len - tail) fuel i acc
        = specSumQuadLoop F xs len fuel i acc := by
  intro fuel
  induction fuel with
  | zero => intro i acc h; rfl
  | succ n ih =>
      intro i acc h
      simp only [sumQuadLoop, specSumQuadLoop]
      by_cases hg : i + 4 ≤ len
      · rw [if_pos (show i < len - tail from by omega), if_pos hg]
        exact ih (i + 4) _ (by omega)
      · rw [if_neg (show ¬ i < len - tail from by omega), if_neg hg]

/-- Claim C2: the arbitrary-length horizontal kernel computes exactly
the staged computation described by the spec — `offset = len % 32`, the
32-wide block loop over the first `len - offset` elements into 8
accumulators, then 4-element groups into accumulator 1 alone while at
least 4 elements remain, then the final 0-3 elements one at a time into
a scalar carry, and finally the scalar carry plus the rollup of the 8
accumulators.  This holds for an arbitrary addition operation. -/
theorem claim_C2 (F : FPOps α) (x : List α) :
    f64XanySumHorizontal F x = specXanySumHorizontal F x := by
  simp only [f64XanySumHorizontal, specXanySumHorizontal]
  have e1 := sumBlockLoop_fst F x (x.length - x.length % 32)
    (x.length - x.length % 32) 0 (zeroAcc8 F) (by omega) (by omega) (by omega)
  by_cases hof : x.length % 32 = 0
  · rw [if_neg (show ¬ x.length % 32 ≠ 0 from by omega),
      if_neg (show ¬ x.length % 32 ≠ 0 from by omega), e1]
    rw [hof]
    simp [specSumQuadLoop, sumScalarLoop, Nat.sub_zero, Nat.sub_self]
  · rw [if_pos (show x.length % 32 ≠ 0 from hof),
      if_pos (show x.length % 32 ≠ 0 from hof), e1,
      quadLoop_eq_spec F x x.length (x.length % 32 % 4) (by omega) _ _ _ (by omega)]

/-! ### Claim C5 -/

/-- Claim C5: on the empty vector, the arbitrary-length horizontal
kernel returns exactly +0.0 (in the signed-zero model of IEEE
addition). -/
theorem claim_C5 : f64XanySumHorizontal szOps ([] : List SZ) = SZ.nz 0 := by
  simp [f64XanySumHorizontal, sumBlockLoop, sumQuadLoop, sumScalarLoop, zeroAcc8,
    rollupX8Pd, sumAvx2Pd, mm256AddPd, mm256SetzeroPd, szOps, szAdd]

/-! ### Claim C6 -/

/-- Counterexample to claim C6 as stated: the dimension constant 0 with
a length-0 input violates the "positive multiple of 32" precondition,
yet both debug assertions of the fixed-dimension horizontal kernel
pass. -/
theorem claim_C6_counterexample :
    f64XconstSumHorizontalAsserts 0 0 = true ∧ ¬ 0 < (0:ℕ) := by
  decide

/-- Amended claim C6: the horizontal kernel's debug assertions pass
precisely when `DIMS % 32 = 0` and the length equals `DIMS` — so every
violation of those two checked equations is caught, but positivity of
the dimension is not checked (a zero dimension with a zero-length input
passes).  The vertical kernel's debug assertions evaluate to "all pass"
precisely when additionally `DIMS ≠ 0`, the matrix length is divisible
by `DIMS` and the output length equals `DIMS`; for `DIMS = 0` the check
itself panics on a remainder by zero rather than failing an assertion. -/
theorem claim_C6 (DIMS len mlen olen : ℕ) :
    (f64XconstSumHorizontalAsserts DIMS len = true
      ↔ (DIMS % 32 = 0 ∧ len = DIMS))
    ∧ (f64XconstSumVerticalAsserts DIMS mlen olen = some true
      ↔ (DIMS % 32 = 0 ∧ DIMS ≠ 0 ∧ mlen % DIMS = 0 ∧ olen = DIMS)) := by
  constructor
  · simp [f64XconstSumHorizontalAsserts]
  · by_cases h1 : DIMS % 32 = 0
    · by_cases h2 : DIMS = 0
      · simp [f64XconstSumVerticalAsserts, h1, h2]
      · simp [f64XconstSumVerticalAsserts, h1, h2]
    · simp [f64XconstSumVerticalAsserts, h1]

/-! ### Claim C7 -/

/-- Claim C7: the horizontal kernels are pure functions of their input —
two calls on the same (unmodified) input vector return identical
results, with no state carried between calls.  In this embedding the
kernels are functions, so the property is their congruence in the input
list. -/
theorem claim_C7 (x y : List SZ) (DIMS : ℕ) (h : x = y) :
    f64XanySumHorizontal szOps x = f64XanySumHorizontal szOps y
    ∧ f64XconstSumHorizontal szOps DIMS x = f64XconstSumHorizontal szOps DIMS y := by
  subst h
  exact ⟨rfl, rfl⟩

/-- Witness for C7. -/
theorem claim_C7_witness :
    ([SZ.nz 1, SZ.negZero] : List SZ) = [SZ.nz 1, SZ.negZero]
    ∧ (f64XanySumHorizontal szOps [SZ.nz 1, SZ.negZero]
        = f64XanySumHorizontal szOps [SZ.nz 1, SZ.negZero]
      ∧ f64XconstSumHorizontal szOps 32 [SZ.nz 1, SZ.negZero]
        = f64XconstSumHorizontal szOps 32 [SZ.nz 1, SZ.negZero]) :=
  ⟨rfl, claim_C7 [SZ.nz 1, SZ.negZero] [SZ.nz 1, SZ.negZero] 32 rfl⟩

/-! ### Signed-zero lemmas and claim C9 -/

/-- IEEE addition cannot produce `-0.0` when its left operand is not
`-0.0`. -/
theorem szAdd_isNZ_left (a b : SZ) (h : a.isNZ = true) :
    (szAdd a b).isNZ = true := by
  cases a <;> cases b <;> simp_all [szAdd, SZ.isNZ]

/-- Adding `+0.0` on the left leaves any value that is not `-0.0`
bit-identical. -/
theorem szAdd_nz_zero_left (b : SZ) (h : b.isNZ = true) :
    szAdd (SZ.nz 0) b = b := by
  cases b <;> simp_all [szAdd, SZ.isNZ]

/-- Adding `+0.0` on the right leaves any value that is not `-0.0`
bit-identical. -/
theorem szAdd_nz_zero_right (a : SZ) (h : a.isNZ = true) :
    szAdd a (SZ.nz 0) = a := by
  cases a <;> simp_all [szAdd, SZ.isNZ]

/-- Adding two `+0.0` values gives `+0.0`. -/
theorem szAdd_zero_zero : szAdd (SZ.nz 0) (SZ.nz 0) = SZ.nz 0 := by
  simp [szAdd]

theorem zeroVec4_allNZ : (mm256SetzeroPd szOps).allNZ := by
  refine ⟨rfl, rfl, rfl, rfl⟩

theorem addPd_allNZ_left (v w : Vec4 SZ) (h : v.allNZ) :
    (mm256AddPd szOps v w).allNZ := by
  obtain ⟨h0, h1, h2, h3⟩ := h
  exact ⟨szAdd_isNZ_left _ _ h0, szAdd_isNZ_left _ _ h1,
    szAdd_isNZ_left _ _ h2, szAdd_isNZ_left _ _ h3⟩

theorem zeroAcc8_allNZ : (zeroAcc8 szOps).allNZ :=
  ⟨zeroVec4_allNZ, zeroVec4_allNZ, zeroVec4_allNZ, zeroVec4_allNZ,
   zeroVec4_allNZ, zeroVec4_allNZ, zeroVec4_allNZ, zeroVec4_allNZ⟩

theorem sumX64Block_allNZ (xs : List SZ) (p : ℕ) (acc : Acc8 SZ)
    (h : acc.allNZ) : (sumX64Block szOps xs p acc).allNZ := by
  obtain ⟨h1, h2, h3, h4, h5, h6, h7, h8⟩ := h
  exact ⟨addPd_allNZ_left _ _ h1, addPd_allNZ_left _ _ h2,
    addPd_allNZ_left _ _ h3, addPd_allNZ_left _ _ h4,
    addPd_allNZ_left _ _ h5, addPd_allNZ_left _ _ h6,
    addPd_allNZ_left _ _ h7, addPd_allNZ_left _ _ h8⟩

theorem sumBlockLoop_allNZ (xs : List SZ) (bound : ℕ) :
    ∀ (fuel i : ℕ) (acc : Acc8 SZ), acc.allNZ →
      (sumBlockLoop szOps xs bound fuel i acc).2.allNZ := by
  intro fuel
  induction fuel with
  | zero => intro i acc h; exact h
  | succ n ih =>
      intro i acc h
      simp only [sumBlockLoop]
      by_cases hib : i < bound
      · simp only [hib, if_true]
        exact ih (i + 32) _ (sumX64Block_allNZ xs i acc h)
      · simpa [hib] using h

/-- The rolled-up scalar of an all-not-`-0.0` accumulator set is not
`-0.0`. -/
theorem sumAvx2_rollup_isNZ (a : Acc8 SZ) (h : a.allNZ) :
    (sumAvx2Pd szOps (rollupX8Pd szOps a)).isNZ = true := by
  obtain ⟨⟨h1, -, -, -⟩, -, -, -, -, -, -, -⟩ := h
  refine szAdd_isNZ_left _ _ (szAdd_isNZ_left _ _ ?_)
  exact szAdd_isNZ_left _ _ (szAdd_isNZ_left _ _ (szAdd_isNZ_left _ _ h1))

/-- Claim C9: on a vector whose length is a nonzero multiple of 32, the
arbitrary-length horizontal kernel returns a result bit-identical to the
fixed-dimension kernel instantiated with that length: the remainder is
empty, the scalar carry stays `+0.0`, and adding `+0.0` to the rollup
does not change it because no accumulator lane can ever be `-0.0` (the
lanes start at `+0.0`, and an IEEE sum is `-0.0` only when both operands
are). -/
theorem claim_C9 (x : List SZ) (h32 : x.length % 32 = 0) (hpos : 0 < x.length) :
    f64XanySumHorizontal szOps x = f64XconstSumHorizontal szOps x.length x := by
  have hxp : 0 < x.length := hpos
  simp only [f64XanySumHorizontal, f64XconstSumHorizontal]
  rw [if_neg (show ¬ x.length % 32 ≠ 0 from by omega),
    if_neg (show ¬ x.length % 32 ≠ 0 from by omega), h32, Nat.sub_zero]
  show szAdd (SZ.nz 0) _ = _
  rw [szAdd_nz_zero_left]
  exact sumAvx2_rollup_isNZ _ (sumBlockLoop_allNZ x x.length x.length 0
    (zeroAcc8 szOps) zeroAcc8_allNZ)

/-- Witness for C9: a length-32 vector containing a negative zero. -/
theorem claim_C9_witness :
    ((List.replicate 31 (SZ.nz 1) ++ [SZ.negZero]).length % 32 = 0
      ∧ 0 < (List.replicate 31 (SZ.nz 1) ++ [SZ.negZero]).length)
    ∧ f64XanySumHorizontal szOps (List.replicate 31 (SZ.nz 1) ++ [SZ.negZero])
      = f64XconstSumHorizontal szOps
          (List.replicate 31 (SZ.nz 1) ++ [SZ.negZero]).length
          (List.replicate 31 (SZ.nz 1) ++ [SZ.negZero]) :=
  ⟨⟨by decide, by decide⟩,
   claim_C9 (List.replicate 31 (SZ.nz 1) ++ [SZ.negZero]) (by decide) (by decide)⟩

/-! ### Claim C10 -/

/-- Claim C10: on a vector of length 1, 2 or 3, the arbitrary-length
horizontal kernel returns exactly the left-to-right scalar sum
`0.0 + x[0] + ... + x[len-1]`: only the scalar-carry loop touches the
elements, all SIMD accumulators stay `+0.0`, and their rollup contributes
exactly `+0.0`. -/
theorem claim_C10 (x : List SZ) (h1 : 0 < x.length) (h3 : x.length ≤ 3) :
    f64XanySumHorizontal szOps x = sequentialSum szOps x := by
  rcases x with _ | ⟨a, _ | ⟨b, _ | ⟨c, _ | ⟨d, t⟩⟩⟩⟩
  · simp at h1
  · simp [f64XanySumHorizontal, sequentialSum, sumBlockLoop, sumQuadLoop,
      sumScalarLoop, zeroAcc8, rollupX8Pd, sumAvx2Pd, mm256AddPd,
      mm256SetzeroPd, szOps, szAdd_zero_zero]
    rw [szAdd_nz_zero_right]
    exact szAdd_isNZ_left _ _ rfl
  · simp [f64XanySumHorizontal, sequentialSum, sumBlockLoop, sumQuadLoop,
      sumScalarLoop, zeroAcc8, rollupX8Pd, sumAvx2Pd, mm256AddPd,
      mm256SetzeroPd, szOps, szAdd_zero_zero]
    rw [szAdd_nz_zero_right]
    exact szAdd_isNZ_left _ _ (szAdd_isNZ_left _ _ rfl)
  · simp [f64XanySumHorizontal, sequentialSum, sumBlockLoop, sumQuadLoop,
      sumScalarLoop, zeroAcc8, rollupX8Pd, sumAvx2Pd, mm256AddPd,
      mm256SetzeroPd, szOps, szAdd_zero_zero]
    rw [szAdd_nz_zero_right]
    exact szAdd_isNZ_left _ _ (szAdd_isNZ_left _ _ (szAdd_isNZ_left _ _ rfl))
  · simp only [List.length_cons] at h3
    omega

/-- Witness for C10: a length-2 vector containing a negative zero. -/
theorem claim_C10_witness :
    (0 < ([SZ.nz 2, SZ.negZero] : List SZ).length
      ∧ ([SZ.nz 2, SZ.negZero] : List SZ).length ≤ 3)
    ∧ f64XanySumHorizontal szOps [SZ.nz 2, SZ.negZero]
      = sequentialSum szOps [SZ.nz 2, SZ.negZero] :=
  ⟨⟨by decide, by decide⟩,
   claim_C10 [SZ.nz 2, SZ.negZero] (by decide) (by decide)⟩

/-! ### Exact-arithmetic accounting over `ℚ`, for claim C8 -/

theorem seg_split (xs : List ℚ) (p m n : ℕ) :
    seg xs p (m + n) = seg xs p m + seg xs (p + m) n := by
  induction n with
  | zero => simp [seg]
  | succ k ih =>
      show seg xs p ((m + k) + 1) = _
      simp only [seg]
      rw [ih, ← Nat.add_assoc]
      ring

theorem seg32_quads (xs : List ℚ) (p : ℕ) :
    seg xs p 32 = seg xs p 4 + seg xs (p+4) 4 + seg xs (p+8) 4 + seg xs (p+12) 4
      + seg xs (p+16) 4 + seg xs (p+20) 4 + seg xs (p+24) 4 + seg xs (p+28) 4 := by
  have h28 : seg xs p 32 = seg xs p 28 + seg xs (p + 28) 4 := seg_split xs p 28 4
  have h24 : seg xs p 28 = seg xs p 24 + seg xs (p + 24) 4 := seg_split xs p 24 4
  have h20 : seg xs p 24 = seg xs p 20 + seg xs (p + 20) 4 := seg_split xs p 20 4
  have h16 : seg xs p 20 = seg xs p 16 + seg xs (p + 16) 4 := seg_split xs p 16 4
  have h12 : seg xs p 16 = seg xs p 12 + seg xs (p + 12) 4 := seg_split xs p 12 4
  have h8 : seg xs p 12 = seg xs p 8 + seg xs (p + 8) 4 := seg_split xs p 8 4
  have h4 : seg xs p 8 = seg xs p 4 + seg xs (p + 4) 4 := seg_split xs p 4 4
  rw [h28, h24, h20, h16, h12, h8, h4]

theorem v4Total_add (a b : Vec4 ℚ) :
    v4Total (mm256AddPd ratOps a b) = v4Total a + v4Total b := by
  simp only [v4Total, mm256AddPd, ratOps]
  ring

theorem v4Total_load (xs : List ℚ) (p : ℕ) :
    v4Total (mm256LoaduPd ratOps xs p) = seg xs p 4 := by
  simp [v4Total, mm256LoaduPd, ratOps, seg]

theorem v4Total_zero : v4Total (mm256SetzeroPd ratOps) = 0 := by
  simp [v4Total, mm256SetzeroPd, ratOps]

theorem accTotal_zero : accTotal (zeroAcc8 ratOps) = 0 := by
  simp [accTotal, zeroAcc8, v4Total_zero]

/-- One 32-wide block adds the 32 loaded elements to the combined
accumulator total. -/
theorem accTotal_block (xs : List ℚ) (p : ℕ) (acc : Acc8 ℚ) :
    accTotal (sumX64Block ratOps xs p acc) = accTotal acc + seg xs p 32 := by
  simp only [accTotal, sumX64Block, offsetsAvx2Pd, CHUNK_0, CHUNK_1,
    v4Total_add, v4Total_load]
  rw [seg32_quads]
  norm_num
  ring

/-- The rollup and horizontal reduce compute exactly the combined
accumulator total (grouping is irrelevant over `ℚ`). -/
theorem sumAvx2_rollup_total (a : Acc8 ℚ) :
    sumAvx2Pd ratOps (rollupX8Pd ratOps a) = accTotal a := by
  simp only [sumAvx2Pd, rollupX8Pd, mm256AddPd, accTotal, v4Total, ratOps]
  ring

/-- The 32-wide block loop adds the covered segment to the total. -/
theorem sumBlockLoop_total (xs : List ℚ) (bound : ℕ) :
    ∀ (fuel i : ℕ) (acc : Acc8 ℚ),
      (bound - i) % 32 = 0 → i ≤ bound → bound - i ≤ fuel →
      accTotal (sumBlockLoop ratOps xs bound fuel i acc).2
        = accTotal acc + seg xs i (bound - i) := by
  intro fuel
  induction fuel with
  | zero =>
      intro i acc h1 h2 h3
      have h0 : bound - i = 0 := by omega
      rw [h0]
      simp [sumBlockLoop, seg]
  | succ n ih =>
      intro i acc h1 h2 h3
      simp only [sumBlockLoop]
      by_cases hib : i < bound
      · simp only [hib, if_true]
        rw [ih (i + 32) _ (by omega) (by omega) (by omega), accTotal_block,
          show bound - i = 32 + (bound - (i + 32)) from by omega, seg_split]
        ring
      · have h0 : bound - i = 0 := by omega
        rw [h0]
        simp [hib, seg]

/-- The 4-wide remainder loop exits at its bound and adds the covered
segment to the lane total of accumulator 1. -/
theorem sumQuadLoop_total (xs : List ℚ) (bound : ℕ) :
    ∀ (fuel i : ℕ) (v : Vec4 ℚ),
      (bound - i) % 4 = 0 → i ≤ bound → bound - i ≤ fuel →
      (sumQuadLoop ratOps xs bound fuel i v).1 = bound
      ∧ v4Total (sumQuadLoop ratOps xs bound fuel i v).2
        = v4Total v + seg xs i (bound - i) := by
  intro fuel
  induction fuel with
  | zero =>
      intro i v h1 h2 h3
      have h0 : i = bound := by omega
      subst h0
      simp [sumQuadLoop, seg]
  | succ n ih =>
      intro i v h1 h2 h3
      simp only [sumQuadLoop]
      by_cases hib : i < bound
      · simp only [hib, if_true]
        obtain ⟨iha, ihb⟩ := ih (i + 4) _ (by omega) (by omega) (by omega)
        refine ⟨iha, ?_⟩
        rw [ihb, v4Total_add, v4Total_load,
          show bound - i = 4 + (bound - (i + 4)) from by omega, seg_split]
        ring
      · have h0 : i = bound := by omega
        subst h0
        simp [hib, seg]

/-- The scalar remainder loop adds the covered segment to the carry. -/
theorem sumScalarLoop_total (xs : List ℚ) (len : ℕ) :
    ∀ (fuel i : ℕ) (e : ℚ), len - i ≤ fuel →
      sumScalarLoop ratOps xs len fuel i e = e + seg xs i (len - i) := by
  intro fuel
  induction fuel with
  | zero =>
      intro i e h
      have h0 : len - i = 0 := by omega
      rw [h0]
      simp [sumScalarLoop, seg]
  | succ n ih =>
      intro i e h
      simp only [sumScalarLoop]
      by_cases hib : i < len
      · simp only [hib, if_true]
        rw [ih (i + 1) _ (by omega),
          show len - i = 1 + (len - (i + 1)) from by omega, seg_split]
        simp [seg, ratOps]
        ring
      · have h0 : len - i = 0 := by omega
        rw [h0]
        simp [hib, seg]

theorem getD_append_left' (xs ys : List α) (k : ℕ) (d : α) (h : k < xs.length) :
    (xs ++ ys).getD k d = xs.getD k d := by
  simp [List.getD, List.getElem?_append_left h]

theorem getD_append_at (xs : List α) (a : α) (d : α) :
    (xs ++ [a]).getD xs.length d = a := by
  simp [List.getD, List.getElem?_append_right (le_refl xs.length)]

theorem seg_append_left (xs ys : List ℚ) (p : ℕ) :
    ∀ n, p + n ≤ xs.length → seg (xs ++ ys) p n = seg xs p n := by
  intro n
  induction n with
  | zero => intro h; rfl
  | succ k ih =>
      intro h
      simp only [seg]
      rw [ih (by omega), getD_append_left' xs ys (p + k) 0 (by omega)]

/-- The straightforward sequential left-to-right sum is the segment sum
of the whole list. -/
theorem sequentialSum_eq_seg (xs : List ℚ) :
    sequentialSum ratOps xs = seg xs 0 xs.length := by
  induction xs using List.reverseRecOn with
  | nil => rfl
  | append_singleton xs a ih =>
      rw [sequentialSum, List.foldl_append]
      have hl : (xs ++ [a]).length = xs.length + 1 := by simp
      rw [hl]
      simp only [seg, Nat.zero_add]
      rw [seg_append_left xs [a] 0 xs.length (by omega), getD_append_at]
      rw [← sequentialSum, ih]
      rfl

/-- Claim C8: over exact arithmetic — where regrouping floating-point
additions makes no difference, so the spec's grouping tolerance is
exactly zero — both the arbitrary-length horizontal kernel and the
fixed-dimension horizontal kernel (on a length that is a multiple of 32)
agree with the straightforward sequential left-to-right sum. -/
theorem claim_C8 (x : List ℚ) :
    f64XanySumHorizontal ratOps x = sequentialSum ratOps x
    ∧ (x.length % 32 = 0 →
        f64XconstSumHorizontal ratOps x.length x = sequentialSum ratOps x) := by
  constructor
  · simp only [f64XanySumHorizontal]
    by_cases hof : x.length % 32 = 0
    · rw [if_neg (show ¬ x.length % 32 ≠ 0 from by omega),
        if_neg (show ¬ x.length % 32 ≠ 0 from by omega), hof, Nat.sub_zero]
      set s := sumBlockLoop ratOps x x.length x.length 0 (zeroAcc8 ratOps) with hs
      show ratOps.add ratOps.zero (sumAvx2Pd ratOps (rollupX8Pd ratOps s.2)) = _
      rw [sumAvx2_rollup_total]
      have ht := sumBlockLoop_total x x.length x.length 0 (zeroAcc8 ratOps)
        (by omega) (by omega) (by omega)
      rw [← hs] at ht
      rw [ht, accTotal_zero, sequentialSum_eq_seg]
      show (0:ℚ) + (0 + seg x 0 (x.length - 0)) = seg x 0 x.length
      rw [Nat.sub_zero]
      ring
    · rw [if_pos (show x.length % 32 ≠ 0 from hof),
        if_pos (show x.length % 32 ≠ 0 from hof),
        sumBlockLoop_fst ratOps x (x.length - x.length % 32)
          (x.length - x.length % 32) 0 (zeroAcc8 ratOps)
          (by omega) (by omega) (by omega)]
      set s := sumBlockLoop ratOps x (x.length - x.length % 32)
        (x.length - x.length % 32) 0 (zeroAcc8 ratOps) with hs
      obtain ⟨hq1, hq2⟩ := sumQuadLoop_total x (x.length - x.length % 32 % 4)
        (x.length - (x.length - x.length % 32)) (x.length - x.length % 32) s.2.a1
        (by omega) (by omega) (by omega)
      rw [hq1]
      set q := sumQuadLoop ratOps x (x.length - x.length % 32 % 4)
        (x.length - (x.length - x.length % 32)) (x.length - x.length % 32) s.2.a1
        with hqdef
      rw [sumScalarLoop_total x x.length
        (x.length - (x.length - x.length % 32 % 4)) (x.length - x.length % 32 % 4)
        ratOps.zero (by omega)]
      rw [sumAvx2_rollup_total]
      have hst := sumBlockLoop_total x (x.length - x.length % 32)
        (x.length - x.length % 32) 0 (zeroAcc8 ratOps) (by omega) (by omega) (by omega)
      rw [← hs, accTotal_zero] at hst
      have htot : v4Total s.2.a1 + v4Total s.2.a2 + v4Total s.2.a3 + v4Total s.2.a4
          + v4Total s.2.a5 + v4Total s.2.a6 + v4Total s.2.a7 + v4Total s.2.a8
          = 0 + seg x 0 (x.length - x.length % 32 - 0) := by
        rw [← hst]
        rfl
      have hsplit1 : seg x 0 x.length
          = seg x 0 (x.length - x.length % 32)
            + seg x (x.length - x.length % 32)
                (x.length - (x.length - x.length % 32)) := by
        rw [show x.length = (x.length - x.length % 32)
            + (x.length - (x.length - x.length % 32)) from by omega] at *
        rw [seg_split x 0 _ _]
        simp
      have hsplit2 : seg x (x.length - x.length % 32)
            (x.length - (x.length - x.length % 32))
          = seg x (x.length - x.length % 32)
              ((x.length - x.length % 32 % 4) - (x.length - x.length % 32))
            + seg x (x.length - x.length % 32 % 4)
                (x.length - (x.length - x.length % 32 % 4)) := by
        rw [show x.length - (x.length - x.length % 32)
            = ((x.length - x.length % 32 % 4) - (x.length - x.length % 32))
              + (x.length - (x.length - x.length % 32 % 4)) from by omega,
          seg_split]
        rw [show x.length - x.length % 32
            + ((x.length - x.length % 32 % 4) - (x.length - x.length % 32))
            = x.length - x.length % 32 % 4 from by omega]
      rw [sequentialSum_eq_seg]
      simp only [accTotal]
      show (0 + seg x (x.length - x.length % 32 % 4)
          (x.length - (x.length - x.length % 32 % 4)))
        + (v4Total q.2 + v4Total s.2.a2 + v4Total s.2.a3 + v4Total s.2.a4
          + v4Total s.2.a5 + v4Total s.2.a6 + v4Total s.2.a7 + v4Total s.2.a8)
        = seg x 0 x.length
      rw [hq2]
      rw [hsplit1, hsplit2]
      have hz : seg x 0 (x.length - x.length % 32 - 0)
          = seg x 0 (x.length - x.length % 32) := by rw [Nat.sub_zero]
      rw [hz] at htot
      linarith [htot]
  · intro h32
    simp only [f64XconstSumHorizontal]
    rw [sumAvx2_rollup_total]
    rw [sumBlockLoop_total x x.length x.length 0 (zeroAcc8 ratOps)
      (by omega) (by omega) (by omega), accTotal_zero, sequentialSum_eq_seg,
      Nat.sub_zero]
    ring

/-- Witness for C8: a 32-element vector. -/
theorem claim_C8_witness :
    (List.replicate 32 (1:ℚ)).length % 32 = 0
    ∧ (f64XanySumHorizontal ratOps (List.replicate 32 1)
        = sequentialSum ratOps (List.replicate 32 1)
      ∧ f64XconstSumHorizontal ratOps (List.replicate 32 (1:ℚ)).length
          (List.replicate 32 1)
        = sequentialSum ratOps (List.replicate 32 1)) :=
  ⟨by decide,
   ⟨(claim_C8 (List.replicate 32 1)).1,
    (claim_C8 (List.replicate 32 1)).2 (by decide)⟩⟩

end Cfavml
